import Mathlib

/-!
Verification of the text chunker `chunkText` from `src/app/src/lib/chunk.ts`.

Modelling conventions:
* a JavaScript string is a Lean `String` (a list of characters); string indices
  and lengths count characters;
* the finite numeric fields `size` and `overlap` of `ChunkOptions` are `Int`
  (the code paths exercised by the spec only ever compare and subtract them,
  and `Math.floor (size / 4)` on an `Int` is integer floor division, which is
  Lean's `/` on `Int`);
* the `while` loop of `chunkText` is embedded with explicit fuel; `chunkText`
  runs it with fuel `normalized.length + 1`, and a stability theorem shows any
  larger fuel computes the same list, which is the termination content of the
  original loop.
-/

/-- The `ChunkOptions` record of chunk.ts: both fields optional,
defaults (1200 and 200) applied inside `chunkText`. -/
structure ChunkOptions where
  size : Option Int := none
  overlap : Option Int := none

/-- The ECMAScript whitespace set (WhiteSpace plus LineTerminator code points):
exactly the characters `String.prototype.trim` strips. -/
def isJsWhitespace (c : Char) : Bool :=
  let n := c.toNat
  n == 0x09 || n == 0x0A || n == 0x0B || n == 0x0C || n == 0x0D ||
  n == 0x20 || n == 0xA0 || n == 0x1680 ||
  (0x2000 ≤ n && n ≤ 0x200A) ||
  n == 0x2028 || n == 0x2029 || n == 0x202F || n == 0x205F ||
  n == 0x3000 || n == 0xFEFF

/-- Model of `slice.trim()`: strip leading and trailing ECMAScript whitespace. -/
def jsTrim (s : List Char) : List Char :=
  ((s.dropWhile isJsWhitespace).reverse.dropWhile isJsWhitespace).reverse

/-- Model of `.replace(/\r\n/g, "\n")`: one left-to-right pass replacing each
non-overlapping CRLF pair with LF (the emitted LF is not rescanned). -/
def replaceCRLF : List Char → List Char
  | [] => []
  | [c] => [c]
  | c :: d :: rest =>
    if c = '\x0D' ∧ d = '\x0A' then '\x0A' :: replaceCRLF rest
    else c :: replaceCRLF (d :: rest)

/-- Model of `.replace(/\t/g, " ")`. -/
def replaceTabs (s : List Char) : List Char :=
  s.map fun c => if c = '\x09' then ' ' else c

/-- Model of the NBSP replacement `.replace(/\u00A0/g, " ")`: non-breaking space to space. -/
def replaceNbsp (s : List Char) : List Char :=
  s.map fun c => if c = '\xA0' then ' ' else c

/-- The character class `[ \f\v]` of the collapsing regex. -/
def isCollapsible (c : Char) : Bool :=
  c == ' ' || c == '\x0C' || c == '\x0B'

/-- Worker for `.replace(/[ \f\v]+/g, " ")`: `inRun` records whether the
previous character belonged to the current collapsible run. -/
def collapseAux : List Char → Bool → List Char
  | [], _ => []
  | c :: rest, inRun =>
    if isCollapsible c then
      if inRun then collapseAux rest true
      else ' ' :: collapseAux rest true
    else c :: collapseAux rest false

/-- Model of `.replace(/[ \f\v]+/g, " ")`: collapse each run of spaces, form feeds and
vertical tabs into a single space. -/
def collapseWs (s : List Char) : List Char := collapseAux s false

/-- The normalization pipeline of chunk.ts lines 15-19, applied once before
windowing: CRLF to LF, tab to space, NBSP to space, collapse space runs. -/
def normalizeChars (s : List Char) : List Char :=
  collapseWs (replaceNbsp (replaceTabs (replaceCRLF s)))

/-- The `while (start < normalized.length)` loop of chunk.ts lines 24-30 with
explicit fuel: compute `end = min (start + size) L`, push the trimmed slice,
stop if `end = L`, otherwise restart from `end - overlap` (truncated
subtraction on `Nat` is exactly `max 0 (end - overlap)`). -/
def chunkLoop (normalized : List Char) (size overlap : Nat) : Nat → Nat → List (List Char)
  | 0, _ => []
  | fuel + 1, start =>
    if start < normalized.length then
      let e := min (start + size) normalized.length
      let c := jsTrim ((normalized.drop start).take (e - start))
      if e = normalized.length then [c]
      else c :: chunkLoop normalized size overlap fuel (e - overlap)
    else []

/-- Lines 12-13 of chunk.ts: negative overlap becomes 0, and an overlap at
least `size` becomes `Math.floor (size / 4)` (Lean's `Int` division is floor
division for the positive divisor 4). -/
def clampOverlap (size overlap : Int) : Int :=
  let o1 := if overlap < 0 then 0 else overlap
  if o1 ≥ size then size / 4 else o1

/-- Function `chunkText` of chunk.ts with an explicit fuel for its `while` loop. -/
def chunkTextFuel (text : String) (options : ChunkOptions) (fuel : Nat) : List String :=
  let size := options.size.getD 1200
  let overlap := options.overlap.getD 200
  if text = "" then []
  else if size ≤ 0 then [text]
  else
    let ov := clampOverlap size overlap
    let normalized := normalizeChars text.data
    ((chunkLoop normalized size.toNat ov.toNat fuel 0).filter
      fun c => !c.isEmpty).map String.mk

/-- Function `chunkText` of chunk.ts: the loop is run with fuel `normalized.length + 1`,
which the fuel-stability theorem shows is always enough. -/
def chunkText (text : String) (options : ChunkOptions) : List String :=
  chunkTextFuel text options ((normalizeChars text.data).length + 1)

/-- The `(start, end)` cursor pairs visited by the windowing loop of chunk.ts,
in order: `end = min (start + size) L`, stop when `end = L`, otherwise
continue from `max 0 (end - overlap)`. -/
def windowBounds (L size overlap : Nat) : Nat → Nat → List (Nat × Nat)
  | 0, _ => []
  | fuel + 1, start =>
    if start < L then
      let e := min (start + size) L
      if e = L then [(start, e)]
      else (start, e) :: windowBounds L size overlap fuel (e - overlap)
    else []

/-- Each window starts exactly where the previous one ended (holds for
overlap 0): the contiguity check of the spec. -/
def contiguousBounds : List (Nat × Nat) → Bool
  | p :: q :: rest => (q.1 == p.2) && contiguousBounds (q :: rest)
  | _ => true

/-- No carriage return immediately followed by a line feed anywhere in the
list: such strings are fixed points of the CRLF replacement. -/
def noCRLF : List Char → Bool
  | c :: d :: rest => !(c == '\x0D' && d == '\x0A') && noCRLF (d :: rest)
  | _ => true

/-- No two adjacent characters of the collapsible class `[ \f\v]`: such
strings (without form feeds and vertical tabs) are fixed points of the
whitespace-run collapse. -/
def noAdjCollapsible : List Char → Bool
  | c :: d :: rest => !(isCollapsible c && isCollapsible d) && noAdjCollapsible (d :: rest)
  | _ => true

/-! Helper lemmas about the clamping of `overlap` and about `jsTrim`. -/

theorem clampOverlap_bounds (size overlap : Int) (h : 0 < size) :
    0 ≤ clampOverlap size overlap ∧ clampOverlap size overlap < size := by
  simp only [clampOverlap]
  split_ifs <;> omega

theorem dropWhile_head_false (p : Char → Bool) :
    ∀ (l : List Char) (c : Char), (l.dropWhile p).head? = some c → p c = false
  | [], c, h => by simp [List.dropWhile] at h
  | a :: l, c, h => by
    by_cases hp : p a
    · rw [List.dropWhile_cons_of_pos hp] at h
      exact dropWhile_head_false p l c h
    · rw [List.dropWhile_cons_of_neg hp] at h
      simp only [List.head?_cons, Option.some.injEq] at h
      subst h
      simpa using hp

theorem dropWhile_eq_self_of_head (p : Char → Bool) (l : List Char)
    (h : ∀ c, l.head? = some c → p c = false) : l.dropWhile p = l := by
  cases l with
  | nil => rfl
  | cons a t => exact List.dropWhile_cons_of_neg (by simp [h a rfl])

theorem jsTrim_length_le (s : List Char) : (jsTrim s).length ≤ s.length := by
  simp only [jsTrim, List.length_reverse]
  calc ((s.dropWhile isJsWhitespace).reverse.dropWhile isJsWhitespace).length
      ≤ (s.dropWhile isJsWhitespace).reverse.length :=
        (List.dropWhile_suffix _).length_le
    _ = (s.dropWhile isJsWhitespace).length := List.length_reverse _
    _ ≤ s.length := (List.dropWhile_suffix _).length_le

theorem jsTrim_head_false (s : List Char) (c : Char)
    (h : (jsTrim s).head? = some c) : isJsWhitespace c = false := by
  simp only [jsTrim] at h
  rw [List.head?_reverse] at h
  set v := (s.dropWhile isJsWhitespace).reverse.dropWhile isJsWhitespace with hv
  rcases List.dropWhile_suffix (l := (s.dropWhile isJsWhitespace).reverse)
      (p := isJsWhitespace) with ⟨a, ha⟩
  have hvne : v ≠ [] := by
    intro he
    rw [he] at h
    simp at h
  have h2 : ((s.dropWhile isJsWhitespace).reverse).getLast? = some c := by
    rw [← ha, List.getLast?_append_of_ne_nil _ hvne, h]
  rw [← List.head?_reverse, List.reverse_reverse] at h2
  exact dropWhile_head_false isJsWhitespace _ c h2

theorem jsTrim_idem (s : List Char) : jsTrim (jsTrim s) = jsTrim s := by
  have h1 : (jsTrim s).dropWhile isJsWhitespace = jsTrim s :=
    dropWhile_eq_self_of_head _ _ (jsTrim_head_false s)
  have h2 : ∀ c, (jsTrim s).reverse.head? = some c → isJsWhitespace c = false := by
    intro c hc
    simp only [jsTrim, List.reverse_reverse] at hc
    exact dropWhile_head_false isJsWhitespace _ c hc
  calc jsTrim (jsTrim s)
      = ((jsTrim s).reverse.dropWhile isJsWhitespace).reverse := by
        rw [jsTrim, h1]
    _ = (jsTrim s).reverse.reverse := by
        rw [dropWhile_eq_self_of_head _ _ h2]
    _ = jsTrim s := List.reverse_reverse _

/-! Helper lemmas about the cursor sequence `windowBounds`. -/

theorem windowBounds_fuel_stable (L s o : Nat) (hos : o < s) :
    ∀ (f1 f2 start : Nat), L - start < f1 → L - start < f2 →
      windowBounds L s o f1 start = windowBounds L s o f2 start := by
  intro f1
  induction f1 with
  | zero => intro f2 start h1 h2; omega
  | succ f ih =>
    intro f2 start h1 h2
    cases f2 with
    | zero => omega
    | succ f2 =>
      simp only [windowBounds]
      by_cases hst : start < L
      · by_cases hge : L ≤ start + s
        · simp [hst, Nat.min_eq_right hge]
        · have hlt : start + s < L := Nat.lt_of_not_le hge
          have hmin : min (start + s) L = start + s := Nat.min_eq_left hlt.le
          simp only [hst, if_true, hmin, if_neg (by omega : ¬ start + s = L)]
          exact congrArg _ (ih f2 (start + s - o) (by omega) (by omega))
      · simp [hst]

theorem windowBounds_mem (L s o : Nat) :
    ∀ (fuel start : Nat) (q : Nat × Nat), q ∈ windowBounds L s o fuel start →
      q.2 = min (q.1 + s) L
  | 0, start, q, h => by simp [windowBounds] at h
  | fuel + 1, start, q, h => by
    simp only [windowBounds] at h
    by_cases hst : start < L
    · simp only [hst, if_true] at h
      by_cases he : min (start + s) L = L
      · simp only [he, if_true] at h
        rw [List.mem_singleton] at h
        subst h
        simp [he]
      · simp only [he, if_false, List.mem_cons] at h
        rcases h with h | h
        · subst h; rfl
        · exact windowBounds_mem L s o fuel _ q h
    · simp [hst] at h

theorem windowBounds_head (L s o fuel start : Nat) (h0 : 0 < fuel) (hst : start < L) :
    (windowBounds L s o fuel start).head? = some (start, min (start + s) L) := by
  cases fuel with
  | zero => omega
  | succ f =>
    simp only [windowBounds, hst, if_true]
    by_cases he : min (start + s) L = L <;> simp [he]

theorem windowBounds_last_end (L s o : Nat) (hos : o < s) :
    ∀ (fuel start : Nat), start < L → L - start < fuel →
      ((windowBounds L s o fuel start).map Prod.snd).getLast? = some L := by
  intro fuel
  induction fuel with
  | zero => intro start h1 h2; omega
  | succ f ih =>
    intro start hst hf
    simp only [windowBounds, hst, if_true]
    by_cases he : min (start + s) L = L
    · simp [he]
    · have hlt : start + s < L := by
        rcases Nat.lt_or_ge (start + s) L with h | h
        · exact h
        · exact absurd (Nat.min_eq_right h) he
      have hmin : min (start + s) L = start + s := Nat.min_eq_left hlt.le
      simp only [he, if_false]
      have hrec := ih (start + s - o) (by omega) (by omega)
      rw [hmin]
      cases hr : windowBounds L s o f (start + s - o) with
      | nil => rw [hr] at hrec; simp at hrec
      | cons b t =>
        rw [hr] at hrec
        simpa [List.getLast?_cons_cons] using hrec

theorem windowBounds_join (n : List Char) (s : Nat) (hs : 0 < s) :
    ∀ (fuel start : Nat), n.length - start < fuel →
      ((windowBounds n.length s 0 fuel start).map
        (fun p => (n.drop p.1).take (p.2 - p.1))).flatten = n.drop start := by
  intro fuel
  induction fuel with
  | zero => intro start h; omega
  | succ f ih =>
    intro start hf
    by_cases hst : start < n.length
    · simp only [windowBounds, hst, if_true]
      by_cases he : min (start + s) n.length = n.length
      · have : (n.drop start).take (n.length - start) = n.drop start := by
          rw [← List.length_drop start n, List.take_length]
        simp [he, this]
      · have hlt : start + s < n.length := by
          rcases Nat.lt_or_ge (start + s) n.length with h | h
          · exact h
          · exact absurd (Nat.min_eq_right h) he
        have hmin : min (start + s) n.length = start + s := Nat.min_eq_left hlt.le
        simp only [hmin, if_neg (by omega : ¬ start + s = n.length), List.map_cons,
          List.flatten_cons, Nat.sub_zero, Nat.add_sub_cancel_left]
        rw [ih (start + s) (by omega)]
        rw [← List.drop_drop, ← List.take_append_drop s (n.drop start)]
        simp [List.drop_drop, Nat.add_comm]
    · have h0 : n.length ≤ start := Nat.le_of_not_lt hst
      simp only [windowBounds, hst, if_false]
      simp [List.drop_eq_nil_of_le h0]

theorem windowBounds_contiguous (L s : Nat) (hs : 0 < s) :
    ∀ (fuel start : Nat), L - start < fuel →
      contiguousBounds (windowBounds L s 0 fuel start) = true := by
  intro fuel
  induction fuel with
  | zero => intro start h; omega
  | succ f ih =>
    intro start hf
    by_cases hst : start < L
    · simp only [windowBounds, hst, if_true]
      by_cases he : min (start + s) L = L
      · simp [he, contiguousBounds]
      · have hlt : start + s < L := by
          rcases Nat.lt_or_ge (start + s) L with h | h
          · exact h
          · exact absurd (Nat.min_eq_right h) he
        have hmin : min (start + s) L = start + s := Nat.min_eq_left hlt.le
        simp only [hmin, if_neg (by omega : ¬ start + s = L), Nat.sub_zero]
        cases hr : windowBounds L s 0 f (start + s) with
        | nil => simp [contiguousBounds]
        | cons b t =>
          have hhead := windowBounds_head L s 0 f (start + s) (by omega) (by omega)
          rw [hr] at hhead
          simp only [List.head?_cons, Option.some.injEq] at hhead
          have hrec := ih (start + s) (by omega)
          rw [hr] at hrec
          subst hhead
          simp [contiguousBounds, hrec]
    · simp only [windowBounds, hst, if_false]
      rfl

/-! Lemmas connecting the chunk loop to the cursor sequence, and facts about
membership in the output of `chunkText`. -/

theorem chunkLoop_eq_windowBounds (n : List Char) (s o : Nat) :
    ∀ (fuel start : Nat), chunkLoop n s o fuel start =
      (windowBounds n.length s o fuel start).map
        (fun p => jsTrim ((n.drop p.1).take (p.2 - p.1)))
  | 0, _ => rfl
  | fuel + 1, start => by
    simp only [chunkLoop, windowBounds]
    by_cases hst : start < n.length
    · simp only [hst, if_true]
      by_cases he : min (start + s) n.length = n.length
      · simp [he]
      · simp only [he, if_false, List.map_cons]
        rw [chunkLoop_eq_windowBounds n s o fuel]
    · simp [hst]

theorem chunkLoop_fuel_stable (n : List Char) (s o : Nat) (hos : o < s)
    (f1 f2 start : Nat) (h1 : n.length - start < f1) (h2 : n.length - start < f2) :
    chunkLoop n s o f1 start = chunkLoop n s o f2 start := by
  rw [chunkLoop_eq_windowBounds, chunkLoop_eq_windowBounds,
    windowBounds_fuel_stable n.length s o hos f1 f2 start h1 h2]

theorem chunkLoop_mem_form (n : List Char) (s o fuel start : Nat) (c : List Char)
    (h : c ∈ chunkLoop n s o fuel start) :
    ∃ a b, b ≤ s ∧ c = jsTrim ((n.drop a).take b) := by
  rw [chunkLoop_eq_windowBounds] at h
  rcases List.mem_map.mp h with ⟨p, hp, hc⟩
  have hq := windowBounds_mem n.length s o fuel start p hp
  exact ⟨p.1, p.2 - p.1, by omega, hc.symm⟩

theorem chunkText_some_some (text : String) (size overlap : Int) :
    chunkText text ⟨some size, some overlap⟩ =
      if text = "" then []
      else if size ≤ 0 then [text]
      else ((chunkLoop (normalizeChars text.data) size.toNat
              (clampOverlap size overlap).toNat
              ((normalizeChars text.data).length + 1) 0).filter
            fun c => !c.isEmpty).map String.mk := rfl

theorem chunkText_eq_windows (text : String) (options : ChunkOptions)
    (hne : text ≠ "") (hs : 0 < options.size.getD 1200) :
    chunkText text options =
      ((windowBounds (normalizeChars text.data).length
          (options.size.getD 1200).toNat
          (clampOverlap (options.size.getD 1200) (options.overlap.getD 200)).toNat
          ((normalizeChars text.data).length + 1) 0).map
        (fun p => jsTrim (((normalizeChars text.data).drop p.1).take (p.2 - p.1)))
        |>.filter (fun c => !c.isEmpty)).map String.mk := by
  simp only [chunkText, chunkTextFuel]
  rw [if_neg hne, if_neg (by omega : ¬ options.size.getD 1200 ≤ 0),
    chunkLoop_eq_windowBounds]

theorem chunkText_mem_form (text : String) (options : ChunkOptions) (c : String)
    (h : c ∈ chunkText text options) :
    (options.size.getD 1200 ≤ 0 ∧ c = text ∧ text ≠ "") ∨
    (0 < options.size.getD 1200 ∧ ∃ d, c = String.mk d ∧ d ≠ [] ∧
      ∃ a b, b ≤ (options.size.getD 1200).toNat ∧
        d = jsTrim (((normalizeChars text.data).drop a).take b)) := by
  simp only [chunkText, chunkTextFuel] at h
  by_cases hne : text = ""
  · rw [if_pos hne] at h
    simp at h
  · rw [if_neg hne] at h
    by_cases hsz : options.size.getD 1200 ≤ 0
    · rw [if_pos hsz] at h
      rw [List.mem_singleton] at h
      exact Or.inl ⟨hsz, h, hne⟩
    · rw [if_neg hsz] at h
      refine Or.inr ⟨by omega, ?_⟩
      rcases List.mem_map.mp h with ⟨d, hd, hcd⟩
      rcases List.mem_filter.mp hd with ⟨hdl, hdne⟩
      rcases chunkLoop_mem_form _ _ _ _ _ _ hdl with ⟨a, b, hb, hform⟩
      exact ⟨d, hcd.symm, by simpa using hdne, a, b, hb, hform⟩

/-! Normalization never maps a non-empty string to the empty string. -/

theorem replaceCRLF_ne_nil : ∀ (l : List Char), l ≠ [] → replaceCRLF l ≠ []
  | [], h => absurd rfl h
  | [c], _ => by simp [replaceCRLF]
  | c :: d :: rest, _ => by
    simp only [replaceCRLF]
    split <;> simp

theorem collapseAux_cons_ne_nil (c : Char) (rest : List Char) :
    collapseAux (c :: rest) false ≠ [] := by
  simp only [collapseAux]
  by_cases h : isCollapsible c = true <;> simp [h]

theorem normalizeChars_ne_nil (l : List Char) (h : l ≠ []) : normalizeChars l ≠ [] := by
  have h1 : replaceCRLF l ≠ [] := replaceCRLF_ne_nil l h
  have h2 : replaceNbsp (replaceTabs (replaceCRLF l)) ≠ [] := by
    simp only [replaceNbsp, replaceTabs]
    simpa using h1
  cases hm : replaceNbsp (replaceTabs (replaceCRLF l)) with
  | nil => exact absurd hm h2
  | cons a t =>
    simp only [normalizeChars, collapseWs, hm]
    exact collapseAux_cons_ne_nil a t

theorem normalizeChars_length_pos (l : List Char) (h : l ≠ []) :
    0 < (normalizeChars l).length :=
  List.length_pos.mpr (normalizeChars_ne_nil l h)

/-! Fixed points of the normalization pipeline: a string without CRLF pairs,
tabs, NBSP, form feeds, vertical tabs or adjacent collapsible characters is
left unchanged by `normalizeChars`; emitted chunks satisfy all of these
except possibly the CRLF condition. -/

theorem replaceCRLF_eq_self : ∀ l : List Char, noCRLF l = true → replaceCRLF l = l
  | [], _ => rfl
  | [c], _ => rfl
  | c :: d :: rest, h => by
    simp only [noCRLF, Bool.and_eq_true, Bool.not_eq_true'] at h
    simp only [replaceCRLF]
    rw [if_neg ?_]
    · rw [replaceCRLF_eq_self (d :: rest) h.2]
    · intro hcd
      rw [hcd.1, hcd.2] at h
      simp at h

theorem replaceTabs_eq_self : ∀ l : List Char, (∀ c ∈ l, c ≠ '\x09') →
    replaceTabs l = l
  | [], _ => rfl
  | a :: t, h => by
    simp only [replaceTabs, List.map_cons]
    rw [if_neg (h a (List.mem_cons_self a t))]
    have ht := replaceTabs_eq_self t (fun c hc => h c (List.mem_cons_of_mem a hc))
    simp only [replaceTabs] at ht
    rw [ht]

theorem replaceNbsp_eq_self : ∀ l : List Char, (∀ c ∈ l, c ≠ '\xA0') →
    replaceNbsp l = l
  | [], _ => rfl
  | a :: t, h => by
    simp only [replaceNbsp, List.map_cons]
    rw [if_neg (h a (List.mem_cons_self a t))]
    have ht := replaceNbsp_eq_self t (fun c hc => h c (List.mem_cons_of_mem a hc))
    simp only [replaceNbsp] at ht
    rw [ht]

theorem noAdj_head (a : Char) (l : List Char) (h : noAdjCollapsible (a :: l) = true) :
    ∀ b, l.head? = some b → (isCollapsible a && isCollapsible b) = false := by
  intro b hb
  cases l with
  | nil => simp at hb
  | cons x r =>
    simp only [List.head?_cons, Option.some.injEq] at hb
    subst hb
    simp only [noAdjCollapsible, Bool.and_eq_true, Bool.not_eq_true'] at h
    exact h.1

theorem noAdj_cons_tail (a : Char) (l : List Char)
    (h : noAdjCollapsible (a :: l) = true) : noAdjCollapsible l = true := by
  cases l with
  | nil => rfl
  | cons b r =>
    simp only [noAdjCollapsible, Bool.and_eq_true] at h
    exact h.2

theorem collapse_eq_self : ∀ l : List Char,
    (∀ c ∈ l, c ≠ '\x0C' ∧ c ≠ '\x0B') → noAdjCollapsible l = true →
    collapseAux l false = l ∧
      ((∀ c, l.head? = some c → isCollapsible c = false) → collapseAux l true = l)
  | [], _, _ => ⟨rfl, fun _ => rfl⟩
  | a :: rest, hm, hadj => by
    have hm2 := fun c hc => hm c (List.mem_cons_of_mem a hc)
    have hadj2 := noAdj_cons_tail a rest hadj
    rcases collapse_eq_self rest hm2 hadj2 with ⟨ih1, ih2⟩
    by_cases ha : isCollapsible a = true
    · have hsp : a = ' ' := by
        have hfv := hm a (List.mem_cons_self a rest)
        simp only [isCollapsible, Bool.or_eq_true, beq_iff_eq] at ha
        rcases ha with (h | h) | h
        · exact h
        · exact absurd h hfv.1
        · exact absurd h hfv.2
      have htail : collapseAux rest true = rest := by
        apply ih2
        intro c hc
        have := noAdj_head a rest hadj c hc
        rw [ha] at this
        simpa using this
      constructor
      · simp only [collapseAux, ha, if_true, Bool.false_eq_true, if_false, htail]
        rw [hsp]
      · intro hh
        exact absurd (hh a rfl) (by simp [ha])
    · have ha2 : isCollapsible a = false := by simpa using ha
      constructor
      · simp only [collapseAux, ha2, Bool.false_eq_true, if_false, ih1]
      · intro _
        simp only [collapseAux, ha2, Bool.false_eq_true, if_false, ih1]

theorem collapseAux_mem : ∀ (l : List Char) (flag : Bool) (c : Char),
    c ∈ collapseAux l flag → c = ' ' ∨ (c ∈ l ∧ isCollapsible c = false)
  | [], _, c, h => by simp [collapseAux] at h
  | a :: rest, flag, c, h => by
    simp only [collapseAux] at h
    by_cases ha : isCollapsible a = true
    · rw [if_pos ha] at h
      have hrec : c ∈ collapseAux rest true → _ := collapseAux_mem rest true c
      cases flag with
      | true =>
        rcases hrec (by simpa using h) with h1 | ⟨h1, h2⟩
        · exact Or.inl h1
        · exact Or.inr ⟨List.mem_cons_of_mem a h1, h2⟩
      | false =>
        simp only [Bool.false_eq_true, if_false, List.mem_cons] at h
        rcases h with h | h
        · exact Or.inl h
        · rcases hrec h with h1 | ⟨h1, h2⟩
          · exact Or.inl h1
          · exact Or.inr ⟨List.mem_cons_of_mem a h1, h2⟩
    · have ha2 : isCollapsible a = false := by simpa using ha
      rw [if_neg ha] at h
      rcases List.mem_cons.mp h with h | h
      · exact Or.inr ⟨by rw [h]; exact List.mem_cons_self a rest, by rw [h]; exact ha2⟩
      · rcases collapseAux_mem rest false c h with h1 | ⟨h1, h2⟩
        · exact Or.inl h1
        · exact Or.inr ⟨List.mem_cons_of_mem a h1, h2⟩

theorem replaceTabs_mem (l : List Char) (c : Char) (h : c ∈ replaceTabs l) :
    c = ' ' ∨ (c ∈ l ∧ c ≠ '\x09') := by
  simp only [replaceTabs, List.mem_map] at h
  rcases h with ⟨x, hx, hfx⟩
  by_cases hxt : x = '\x09'
  · left
    rw [← hfx, if_pos hxt]
  · right
    rw [← hfx, if_neg hxt]
    exact ⟨hx, hxt⟩

theorem replaceNbsp_mem (l : List Char) (c : Char) (h : c ∈ replaceNbsp l) :
    c = ' ' ∨ (c ∈ l ∧ c ≠ '\xA0') := by
  simp only [replaceNbsp, List.mem_map] at h
  rcases h with ⟨x, hx, hfx⟩
  by_cases hxt : x = '\xA0'
  · left
    rw [← hfx, if_pos hxt]
  · right
    rw [← hfx, if_neg hxt]
    exact ⟨hx, hxt⟩

theorem normalizeChars_chars (l : List Char) (c : Char) (h : c ∈ normalizeChars l) :
    c ≠ '\x09' ∧ c ≠ '\xA0' ∧ c ≠ '\x0C' ∧ c ≠ '\x0B' := by
  simp only [normalizeChars, collapseWs] at h
  rcases collapseAux_mem _ _ _ h with hsp | ⟨hm, hnc⟩
  · subst hsp
    exact ⟨by decide, by decide, by decide, by decide⟩
  · have hfv : c ≠ '\x0C' ∧ c ≠ '\x0B' := by
      constructor <;> intro hh <;> rw [hh] at hnc <;> simp [isCollapsible] at hnc
    rcases replaceNbsp_mem _ _ hm with hsp | ⟨hm2, hnb⟩
    · subst hsp
      exact ⟨by decide, by decide, hfv.1, hfv.2⟩
    · rcases replaceTabs_mem _ _ hm2 with hsp | ⟨_, ht⟩
      · subst hsp
        exact ⟨by decide, hnb, hfv.1, hfv.2⟩
      · exact ⟨ht, hnb, hfv.1, hfv.2⟩

theorem noAdj_cons (a : Char) (l : List Char)
    (h1 : ∀ b, l.head? = some b → (isCollapsible a && isCollapsible b) = false)
    (h2 : noAdjCollapsible l = true) : noAdjCollapsible (a :: l) = true := by
  cases l with
  | nil => rfl
  | cons b r =>
    simp only [noAdjCollapsible, Bool.and_eq_true, Bool.not_eq_true']
    exact ⟨h1 b rfl, h2⟩

theorem collapseWs_noAdj : ∀ l : List Char,
    noAdjCollapsible (collapseAux l false) = true ∧
    (∀ c, (collapseAux l true).head? = some c → isCollapsible c = false) ∧
    noAdjCollapsible (collapseAux l true) = true
  | [] => ⟨rfl, fun c h => by simp [collapseAux] at h, rfl⟩
  | a :: rest => by
    rcases collapseWs_noAdj rest with ⟨ih1, ih2, ih3⟩
    by_cases ha : isCollapsible a = true
    · simp only [collapseAux, ha, if_true]
      refine ⟨?_, ih2, ih3⟩
      exact noAdj_cons ' ' _ (fun b hb => by simp [ih2 b hb]) ih3
    · have ha2 : isCollapsible a = false := by simpa using ha
      simp only [collapseAux, ha2, Bool.false_eq_true, if_false]
      refine ⟨?_, ?_, ?_⟩
      · exact noAdj_cons a _ (fun b hb => by simp [ha2]) ih1
      · intro c hc
        simp only [List.head?_cons, Option.some.injEq] at hc
        rw [← hc]
        exact ha2
      · exact noAdj_cons a _ (fun b hb => by simp [ha2]) ih1

theorem noAdj_append_right : ∀ u v : List Char,
    noAdjCollapsible (u ++ v) = true → noAdjCollapsible v = true
  | [], _, h => h
  | a :: u, v, h => noAdj_append_right u v (noAdj_cons_tail a _ (by simpa using h))

theorem noAdj_append_left : ∀ u v : List Char,
    noAdjCollapsible (u ++ v) = true → noAdjCollapsible u = true
  | [], _, _ => rfl
  | [a], _, _ => rfl
  | a :: b :: u, v, h => by
    simp only [List.cons_append, noAdjCollapsible, Bool.and_eq_true] at h ⊢
    refine ⟨h.1, ?_⟩
    have := noAdj_append_left (b :: u) v (by simpa using h.2)
    simpa using this

theorem noAdj_infix (u l : List Char) (h : u <:+: l)
    (hl : noAdjCollapsible l = true) : noAdjCollapsible u = true := by
  rcases h with ⟨s, t, rfl⟩
  exact noAdj_append_left u t (noAdj_append_right s (u ++ t) (by simpa [List.append_assoc] using hl))

theorem jsTrim_isInfix (l : List Char) : jsTrim l <:+: l := by
  have h1 : l.dropWhile isJsWhitespace <:+ l := List.dropWhile_suffix _
  have h2 : (l.dropWhile isJsWhitespace).reverse.dropWhile isJsWhitespace <:+
      (l.dropWhile isJsWhitespace).reverse := List.dropWhile_suffix _
  have h3 : jsTrim l <+: l.dropWhile isJsWhitespace := by
    rcases h2 with ⟨t, ht⟩
    refine ⟨t.reverse, ?_⟩
    rw [jsTrim, ← List.reverse_append, ht, List.reverse_reverse]
  exact h3.isInfix.trans h1.isInfix

theorem emitted_chunk_normalize_fixed (t : List Char) (a b : Nat) (d : List Char)
    (hform : d = jsTrim (((normalizeChars t).drop a).take b))
    (hcrlf : noCRLF d = true) : normalizeChars d = d := by
  have hinf : d <:+: normalizeChars t := by
    rw [hform]
    exact (jsTrim_isInfix _).trans
      (((List.take_prefix _ _).isInfix).trans ((List.drop_suffix _ _).isInfix))
  have hmem : ∀ c ∈ d, c ≠ '\x09' ∧ c ≠ '\xA0' ∧ c ≠ '\x0C' ∧ c ≠ '\x0B' :=
    fun c hc => normalizeChars_chars t c (hinf.subset hc)
  have hadj : noAdjCollapsible d = true := by
    refine noAdj_infix d (normalizeChars t) hinf ?_
    simp only [normalizeChars, collapseWs]
    exact (collapseWs_noAdj (replaceNbsp (replaceTabs (replaceCRLF t)))).1
  have h1 : replaceCRLF d = d := replaceCRLF_eq_self d hcrlf
  have h2 : replaceTabs d = d := replaceTabs_eq_self d (fun c hc => (hmem c hc).1)
  have h3 : replaceNbsp d = d := replaceNbsp_eq_self d (fun c hc => (hmem c hc).2.1)
  have h4 : collapseAux d false = d :=
    (collapse_eq_self d (fun c hc => ⟨(hmem c hc).2.2.1, (hmem c hc).2.2.2⟩) hadj).1
  simp only [normalizeChars, collapseWs, h1, h2, h3, h4]

/-! The claims. -/

/-- C10: for the empty input string, `chunkText` returns the empty list for
every options value, without error; in particular with `size = 0` the
empty-input check takes precedence over the non-positive-size passthrough, so
the result is `[]` and not `[""]`. -/
theorem chunkText_empty_input :
    (∀ options : ChunkOptions, chunkText "" options = []) ∧
    chunkText "" ⟨some 0, none⟩ = [] ∧ chunkText "" ⟨some 0, none⟩ ≠ [""] := by
  refine ⟨fun options => ?_, by decide, by decide⟩
  simp [chunkText, chunkTextFuel]

/-- C5: for every non-empty text (including whitespace-only text) and any
options whose effective size is non-positive, `chunkText` returns exactly
`[text]`: the raw input, not normalized, not trimmed, not filtered. -/
theorem chunkText_nonpositive_size_passthrough (text : String) (options : ChunkOptions)
    (hne : text ≠ "") (hsz : options.size.getD 1200 ≤ 0) :
    chunkText text options = [text] := by
  simp only [chunkText, chunkTextFuel]
  rw [if_neg hne, if_pos hsz]

/-- C5 witness: whitespace-only input with `size = 0` is passed through
verbatim rather than filtered. -/
theorem chunkText_nonpositive_size_passthrough_witness :
    ("   " : String) ≠ "" ∧ (ChunkOptions.mk (some 0) none).size.getD 1200 ≤ 0 ∧
    chunkText "   " ⟨some 0, none⟩ = ["   "] :=
  ⟨by decide, by decide,
    chunkText_nonpositive_size_passthrough "   " ⟨some 0, none⟩ (by decide) (by decide)⟩

/-- C4: normalization before windowing replaces CRLF by LF, tabs and NBSP by
spaces, and collapses runs of spaces/form feeds/vertical tabs to one space
while leaving newlines alone: `chunkText "a\r\nb\tc d"` (size 1200) is
`["a\nb c d"]`, `chunkText "a    b"` is `["a b"]`, and a double newline
survives uncollapsed. -/
theorem chunkText_normalization :
    chunkText "a\r\nb\tc d" ⟨some 1200, none⟩ = ["a\nb c d"] ∧
    chunkText "a    b" ⟨some 1200, none⟩ = ["a b"] ∧
    chunkText "a\n\nb" ⟨some 1200, none⟩ = ["a\n\nb"] :=
  ⟨by decide, by decide, by decide⟩

/-- C1: the windowing loop follows the cursor rule captured by `windowBounds`
(start 0, end = min (start + size) L, emit the trimmed slice, stop once
end = L, else continue from max 0 (end − overlap)); on "0123456789" with
size 4 and overlap 2 the chunks are "0123", "2345", "4567", "6789", the
cursor pairs are (0,4), (2,6), (4,8), (6,10) — each start is the previous
end minus 2 and the final end is 10. -/
theorem chunkText_windowing_overlap :
    chunkText "0123456789" ⟨some 4, some 2⟩ = ["0123", "2345", "4567", "6789"] ∧
    windowBounds 10 4 2 11 0 = [(0, 4), (2, 6), (4, 8), (6, 10)] ∧
    (∀ (text : String) (options : ChunkOptions), text ≠ "" →
      0 < options.size.getD 1200 →
      chunkText text options =
        ((windowBounds (normalizeChars text.data).length
            (options.size.getD 1200).toNat
            (clampOverlap (options.size.getD 1200) (options.overlap.getD 200)).toNat
            ((normalizeChars text.data).length + 1) 0).map
          (fun p => jsTrim (((normalizeChars text.data).drop p.1).take (p.2 - p.1)))
          |>.filter (fun c => !c.isEmpty)).map String.mk) :=
  ⟨by decide, by decide, chunkText_eq_windows⟩

/-- C1 witness: the windowing description applied at a concrete input. -/
theorem chunkText_windowing_overlap_witness :
    ("ab cd" : String) ≠ "" ∧
    0 < (ChunkOptions.mk (some 3) (some 1)).size.getD 1200 ∧
    chunkText "ab cd" ⟨some 3, some 1⟩ =
      ((windowBounds (normalizeChars ("ab cd" : String).data).length
          ((ChunkOptions.mk (some 3) (some 1)).size.getD 1200).toNat
          (clampOverlap ((ChunkOptions.mk (some 3) (some 1)).size.getD 1200)
            ((ChunkOptions.mk (some 3) (some 1)).overlap.getD 200)).toNat
          ((normalizeChars ("ab cd" : String).data).length + 1) 0).map
        (fun p => jsTrim (((normalizeChars ("ab cd" : String).data).drop p.1).take (p.2 - p.1)))
        |>.filter (fun c => !c.isEmpty)).map String.mk :=
  ⟨by decide, by decide,
    chunkText_windowing_overlap.2.2 "ab cd" ⟨some 3, some 1⟩ (by decide) (by decide)⟩

theorem clampOverlap_ge_size (size overlap : Int) (hpos : 0 < size) (h : size ≤ overlap) :
    clampOverlap size overlap = clampOverlap size (size / 4) := by
  simp only [clampOverlap]
  split_ifs <;> omega

theorem clampOverlap_neg (size overlap : Int) (h : overlap < 0) :
    clampOverlap size overlap = clampOverlap size 0 := by
  simp only [clampOverlap]
  split_ifs <;> omega

/-- C3: the clamp rules are behavioural equivalences of `chunkText`: an
overlap at least `size` behaves exactly like `floor (size / 4)` and a
negative overlap behaves exactly like 0, for every text; in particular
options (10, 10) ≡ (10, 2) and (10, −5) ≡ (10, 0). -/
theorem chunkText_overlap_clamp_equiv :
    (∀ (size overlap : Int) (text : String), size ≤ overlap →
      chunkText text ⟨some size, some overlap⟩ =
        chunkText text ⟨some size, some (size / 4)⟩) ∧
    (∀ (size overlap : Int) (text : String), overlap < 0 →
      chunkText text ⟨some size, some overlap⟩ = chunkText text ⟨some size, some 0⟩) ∧
    (∀ text : String,
      chunkText text ⟨some 10, some 10⟩ = chunkText text ⟨some 10, some 2⟩) ∧
    (∀ text : String,
      chunkText text ⟨some 10, some (-5)⟩ = chunkText text ⟨some 10, some 0⟩) := by
  have congrOv : ∀ (text : String) (size o1 o2 : Int),
      (0 < size → clampOverlap size o1 = clampOverlap size o2) →
      chunkText text ⟨some size, some o1⟩ = chunkText text ⟨some size, some o2⟩ := by
    intro text size o1 o2 h
    rw [chunkText_some_some, chunkText_some_some]
    by_cases hne : text = ""
    · simp [hne]
    · by_cases hsz : size ≤ 0
      · simp [hne, hsz]
      · rw [h (by omega)]
  have hgen1 : ∀ (size overlap : Int) (text : String), size ≤ overlap →
      chunkText text ⟨some size, some overlap⟩ =
        chunkText text ⟨some size, some (size / 4)⟩ := by
    intro size overlap text h
    exact congrOv text size overlap (size / 4)
      (fun hpos => clampOverlap_ge_size size overlap hpos h)
  have hgen2 : ∀ (size overlap : Int) (text : String), overlap < 0 →
      chunkText text ⟨some size, some overlap⟩ = chunkText text ⟨some size, some 0⟩ := by
    intro size overlap text h
    exact congrOv text size overlap 0 (fun _ => clampOverlap_neg size overlap h)
  refine ⟨hgen1, hgen2, fun text => ?_, fun text => hgen2 10 (-5) text (by decide)⟩
  have h10 := hgen1 10 10 text (by decide)
  rwa [(by decide : (10 : Int) / 4 = 2)] at h10

/-- C3 witness: the clamp equivalences applied at concrete inputs. -/
theorem chunkText_overlap_clamp_equiv_witness :
    (10 : Int) ≤ 12 ∧
    chunkText "hello" ⟨some 10, some 12⟩ =
      chunkText "hello" ⟨some 10, some ((10 : Int) / 4)⟩ ∧
    (-3 : Int) < 0 ∧
    chunkText "hello" ⟨some 10, some (-3)⟩ = chunkText "hello" ⟨some 10, some 0⟩ :=
  ⟨by decide, chunkText_overlap_clamp_equiv.1 10 12 "hello" (by decide), by decide,
    chunkText_overlap_clamp_equiv.2.1 10 (-3) "hello" (by decide)⟩

/-- C2: totality and termination: the windowing loop needs at most
`normalized.length + 1` iterations — running the fuel-indexed model with any
larger fuel returns the same finite list — and on every windowing path the
clamp rules deliver `0 ≤ overlap < size`. -/
theorem chunkText_totality :
    (∀ (text : String) (options : ChunkOptions) (k : Nat),
      chunkTextFuel text options ((normalizeChars text.data).length + 1 + k) =
        chunkText text options) ∧
    (∀ size overlap : Int, 0 < size →
      0 ≤ clampOverlap size overlap ∧ clampOverlap size overlap < size) := by
  constructor
  · intro text options k
    simp only [chunkText, chunkTextFuel]
    by_cases hne : text = ""
    · simp [hne]
    · by_cases hsz : options.size.getD 1200 ≤ 0
      · simp [hne, hsz]
      · rw [if_neg hne, if_neg hsz, if_neg hne, if_neg hsz]
        have hb := clampOverlap_bounds (options.size.getD 1200)
          (options.overlap.getD 200) (by omega)
        rw [chunkLoop_fuel_stable (normalizeChars text.data)
          (options.size.getD 1200).toNat
          (clampOverlap (options.size.getD 1200) (options.overlap.getD 200)).toNat
          (by omega)
          ((normalizeChars text.data).length + 1 + k)
          ((normalizeChars text.data).length + 1) 0 (by omega) (by omega)]
  · exact fun size overlap h => clampOverlap_bounds size overlap h

/-- C2 witness: extra fuel changes nothing at a concrete input, and the clamp
bound holds at a concrete positive size. -/
theorem chunkText_totality_witness :
    chunkTextFuel "abc" ⟨some 2, some 5⟩
        ((normalizeChars ("abc" : String).data).length + 1 + 7) =
      chunkText "abc" ⟨some 2, some 5⟩ ∧
    (0 : Int) < 2 ∧ 0 ≤ clampOverlap 2 5 ∧ clampOverlap 2 5 < 2 :=
  ⟨chunkText_totality.1 "abc" ⟨some 2, some 5⟩ 7, by decide,
    (chunkText_totality.2 2 5 (by decide)).1, (chunkText_totality.2 2 5 (by decide)).2⟩

/-- C6: the data-model invariants: after clamping, `0 ≤ overlap < size` on
every windowing path; every chunk in the returned list is non-empty; and on
the windowing path the final cursor pair always ends exactly at the length of
the normalized text. -/
theorem chunkText_invariants :
    (∀ size overlap : Int, 0 < size →
      0 ≤ clampOverlap size overlap ∧ clampOverlap size overlap < size) ∧
    (∀ (text : String) (options : ChunkOptions) (c : String),
      c ∈ chunkText text options → c ≠ "") ∧
    (∀ (text : String) (options : ChunkOptions), text ≠ "" →
      0 < options.size.getD 1200 →
      ((windowBounds (normalizeChars text.data).length
          (options.size.getD 1200).toNat
          (clampOverlap (options.size.getD 1200) (options.overlap.getD 200)).toNat
          ((normalizeChars text.data).length + 1) 0).map Prod.snd).getLast? =
        some (normalizeChars text.data).length) := by
  refine ⟨fun size overlap h => clampOverlap_bounds size overlap h, ?_, ?_⟩
  · intro text options c hc
    rcases chunkText_mem_form text options c hc with ⟨_, hct, hne⟩ | ⟨_, d, hcd, hdne, _⟩
    · rw [hct]; exact hne
    · rw [hcd]
      intro h
      exact hdne (congrArg String.data h)
  · intro text options hne hsz
    have hdne : text.data ≠ [] := by
      intro hd
      apply hne
      cases text
      simp_all
    have hb := clampOverlap_bounds (options.size.getD 1200)
      (options.overlap.getD 200) (by omega)
    exact windowBounds_last_end (normalizeChars text.data).length
      (options.size.getD 1200).toNat
      (clampOverlap (options.size.getD 1200) (options.overlap.getD 200)).toNat
      (by omega) ((normalizeChars text.data).length + 1) 0
      (normalizeChars_length_pos text.data hdne) (by omega)

/-- C6 witness: the invariants at concrete inputs. -/
theorem chunkText_invariants_witness :
    (0 ≤ clampOverlap 1200 200 ∧ clampOverlap 1200 200 < 1200) ∧
    ("hello" : String) ≠ "" ∧
    ((windowBounds (normalizeChars ("hello" : String).data).length
        ((ChunkOptions.mk (some 4) (some 0)).size.getD 1200).toNat
        (clampOverlap ((ChunkOptions.mk (some 4) (some 0)).size.getD 1200)
          ((ChunkOptions.mk (some 4) (some 0)).overlap.getD 200)).toNat
        ((normalizeChars ("hello" : String).data).length + 1) 0).map Prod.snd).getLast? =
      some (normalizeChars ("hello" : String).data).length :=
  ⟨chunkText_invariants.1 1200 200 (by decide),
    chunkText_invariants.2.1 "hello" ⟨none, none⟩ "hello" (by decide),
    chunkText_invariants.2.2 "hello" ⟨some 4, some 0⟩ (by decide) (by decide)⟩

/-- C8: with overlap 0 the windows are contiguous and non-overlapping —
consecutive cursor pairs meet exactly and the untrimmed slices concatenate to
the whole normalized text — and `chunkText` on ten copies of "a" with size 4
and overlap 0 returns exactly ["aaaa", "aaaa", "aa"]. -/
theorem chunkText_zero_overlap_partition :
    chunkText "aaaaaaaaaa" ⟨some 4, some 0⟩ = ["aaaa", "aaaa", "aa"] ∧
    (∀ (n : List Char) (s fuel : Nat), 0 < s → n.length < fuel →
      ((windowBounds n.length s 0 fuel 0).map
        (fun p => (n.drop p.1).take (p.2 - p.1))).flatten = n ∧
      contiguousBounds (windowBounds n.length s 0 fuel 0) = true) :=
  ⟨by decide, fun n s fuel hs hf =>
    ⟨by simpa using windowBounds_join n s hs fuel 0 (by omega),
      windowBounds_contiguous n.length s hs fuel 0 (by omega)⟩⟩

/-- C8 witness: the partition property at a concrete input. -/
theorem chunkText_zero_overlap_partition_witness :
    0 < 2 ∧ ([ 'a', 'b', 'c'] : List Char).length < 4 ∧
    ((windowBounds ([ 'a', 'b', 'c'] : List Char).length 2 0 4 0).map
      (fun p => (([ 'a', 'b', 'c'] : List Char).drop p.1).take (p.2 - p.1))).flatten =
      [ 'a', 'b', 'c'] ∧
    contiguousBounds (windowBounds ([ 'a', 'b', 'c'] : List Char).length 2 0 4 0) = true :=
  ⟨by decide, by decide,
    (chunkText_zero_overlap_partition.2 [ 'a', 'b', 'c'] 2 4 (by decide) (by decide)).1,
    (chunkText_zero_overlap_partition.2 [ 'a', 'b', 'c'] 2 4 (by decide) (by decide)).2⟩

/-- C9: bounded chunk size: whenever the effective size is positive, every
string in the list returned by `chunkText` has length at most that size. -/
theorem chunkText_size_bound (text : String) (options : ChunkOptions)
    (hs : 0 < options.size.getD 1200) (c : String) (hc : c ∈ chunkText text options) :
    (c.length : Int) ≤ options.size.getD 1200 := by
  rcases chunkText_mem_form text options c hc with ⟨hsz, _⟩ | ⟨_, d, hcd, _, a, b, hb, hform⟩
  · omega
  · have hlen : d.length ≤ b := by
      rw [hform]
      refine le_trans (jsTrim_length_le _) ?_
      simp [List.length_take]
    have hcl : c.length = d.length := by rw [hcd]; rfl
    omega

/-- C9 witness: the bound at a concrete input. -/
theorem chunkText_size_bound_witness :
    0 < (ChunkOptions.mk (some 4) (some 2)).size.getD 1200 ∧
    "0123" ∈ chunkText "0123456789" ⟨some 4, some 2⟩ ∧
    (("0123" : String).length : Int) ≤ (ChunkOptions.mk (some 4) (some 2)).size.getD 1200 :=
  ⟨by decide, by decide,
    chunkText_size_bound "0123456789" ⟨some 4, some 2⟩ (by decide) "0123" (by decide)⟩

/-- C7 counterexample: re-chunking an emitted chunk is not idempotent in
general. On input "a\r\r\nb" the single normalization pass rewrites the
character sequence to "a\r\nb" (the regex scan does not revisit the carriage
return left behind), so the emitted chunk still contains a CRLF pair;
re-running `chunkText` on that chunk normalizes again and returns ["a\nb"],
not the chunk unchanged. -/
theorem chunkText_rechunk_counterexample :
    "a\r\nb" ∈ chunkText "a\r\r\nb" ⟨some 1200, some 200⟩ ∧
    chunkText "a\r\nb" ⟨some 1200, some 200⟩ ≠ ["a\r\nb"] :=
  ⟨by decide, by decide⟩

/-- C7 amended: re-chunking is idempotent on every emitted chunk that
contains no CRLF pair: if `c` is in `chunkText text options` and no carriage
return in `c` is immediately followed by a line feed, then
`chunkText c options = [c]` (emitted chunks can contain no tab, NBSP, form
feed, vertical tab or adjacent collapsible characters, so without a CRLF pair
the second normalization pass leaves the chunk unchanged). -/
theorem chunkText_rechunk_idempotent (text : String) (options : ChunkOptions)
    (c : String) (hc : c ∈ chunkText text options)
    (hcrlf : noCRLF c.data = true) :
    chunkText c options = [c] := by
  rcases chunkText_mem_form text options c hc with ⟨hsz, hct, hne⟩ |
    ⟨hs, d, hcd, hdne, a, b, hb, hform⟩
  · subst hct
    simp only [chunkText, chunkTextFuel]
    rw [if_neg hne, if_pos hsz]
  · subst hcd
    have hcr2 : noCRLF d = true := hcrlf
    have hfix2 : normalizeChars d = d :=
      emitted_chunk_normalize_fixed text.data a b d hform hcr2
    have hne : String.mk d ≠ "" := by
      intro h
      exact hdne (congrArg String.data h)
    have hdlen : d.length ≤ (options.size.getD 1200).toNat := by
      have h1 : d.length ≤ b := by
        rw [hform]
        refine le_trans (jsTrim_length_le _) ?_
        simp [List.length_take]
      omega
    have hpos : 0 < d.length := List.length_pos.mpr hdne
    have hjd : jsTrim d = d := by
      rw [hform]
      exact jsTrim_idem _
    simp only [chunkText, chunkTextFuel]
    rw [if_neg hne, if_neg (by omega : ¬ options.size.getD 1200 ≤ 0)]
    rw [hfix2]
    simp only [chunkLoop]
    rw [if_pos hpos, Nat.zero_add,
      Nat.min_eq_right hdlen, if_pos rfl]
    simp [List.take_length, hjd, List.isEmpty_eq_false.mpr hdne]

/-- C7 amended witness: a concrete emitted chunk fixed by normalization
re-chunks to itself. -/
theorem chunkText_rechunk_idempotent_witness :
    "hi ho" ∈ chunkText "hi ho" ⟨some 1200, some 200⟩ ∧
    noCRLF ("hi ho" : String).data = true ∧
    chunkText "hi ho" ⟨some 1200, some 200⟩ = ["hi ho"] :=
  ⟨by decide, by decide,
    chunkText_rechunk_idempotent "hi ho" ⟨some 1200, some 200⟩ "hi ho"
      (by decide) (by decide)⟩
